import Mathlib

/-!
Verification of the stream composition library: the partial-write-safe
FileSink adapter (`toFileSink` / `toFile`), the array-like stage operators
(`take`, `skip`, `scan`, `map`, `filter`), the `collect` terminal operator,
and error propagation through `through`-style transform stages.

The embedding is a shallow one: each stage's transform callback is
transliterated as a recursive function over the list of chunks that flow
through it, and the FileSink's `write` callback is transliterated as a
recursion over the remaining unwritten bytes of the chunk, driven by an
arbitrary writer behaviour `W : Nat → Nat → Nat` giving, for each
underlying write call (indexed by a running call counter) and requested
length, the number of bytes that call reports written.
-/

namespace SubstrateStream

/-- State of the FileSink adapter: the target file's bytes, the write
cursor `position` (from `toFileSink`: `let position = 0` then
`position += bytesWritten`), and a running count of underlying write
calls (used to index the writer behaviour). -/
structure SinkState where
  file : List Nat
  position : Nat
  calls : Nat
deriving Repr, DecidableEq

/-- Outcome of draining a chunk.  `noProgress` models the
`throw new Error('Expected file handle write to advance.')` branch taken
when `bytesWritten <= 0`; `outOfFuel` is a modelling artifact of the fuel
parameter and is proved unreachable when the fuel is at least the number
of unwritten bytes. -/
inductive DrainErr where
  | noProgress
  | outOfFuel
deriving Repr, DecidableEq

/-- Semantics of one underlying `fh.write(buffer, offset, length, position)`
call that reports `bytes.length` bytes written: the bytes land at file
offset `pos`, overwriting what is there and extending the file (with zero
padding when the cursor is past the end) as a random-access file does. -/
def storeBytes (file : List Nat) (pos : Nat) (bytes : List Nat) : List Nat :=
  file.take pos ++ List.replicate (pos - file.length) 0 ++ bytes
    ++ file.drop (pos + bytes.length)

/-- The retry loop of `toFileSink`'s `write(chunk)` callback:
`while (offset < chunk.byteLength) { bytesWritten := fh.write(chunk, offset,
chunk.byteLength - offset, position); if bytesWritten <= 0 throw;
offset += bytesWritten; position += bytesWritten }`.
`W st.calls len` is the byte count the writer reports for this call. -/
def drain (W : Nat → Nat → Nat) :
    Nat → List Nat → Nat → SinkState → Except DrainErr SinkState
  | fuel, chunk, offset, st =>
    if offset < chunk.length then
      match fuel with
      | 0 => .error .outOfFuel
      | fuel + 1 =>
        let bw := W st.calls (chunk.length - offset)
        if bw = 0 then
          .error .noProgress
        else
          drain W fuel chunk (offset + bw)
            { file := storeBytes st.file st.position ((chunk.drop offset).take bw)
              position := st.position + bw
              calls := st.calls + 1 }
    else
      .ok st

/-- `toFileSink`'s `write` callback on one incoming chunk, starting at
`offset = 0`.  Fuel `chunk.length` suffices because every iteration either
throws or advances `offset` by at least one. -/
def writeChunk (W : Nat → Nat → Nat) (chunk : List Nat) (st : SinkState) :
    Except DrainErr SinkState :=
  drain W chunk.length chunk 0 st

/-- Feeding a finite sequence of chunks through the sink's `write`
callback in order (as `ReadableStream.pipeTo` does). -/
def runChunks (W : Nat → Nat → Nat) :
    List (List Nat) → SinkState → Except DrainErr SinkState
  | [], st => .ok st
  | c :: cs, st =>
    match writeChunk W c st with
    | .ok st' => runChunks W cs st'
    | .error e => .error e

/-- The sink built over a pre-existing target file: cursor 0, no calls yet. -/
def initSink (file : List Nat) : SinkState :=
  { file := file, position := 0, calls := 0 }

/-- `fh.truncate(len)`: cut the file to `len` bytes, zero-extending when it
is shorter. -/
def truncateFile (file : List Nat) (len : Nat) : List Nat :=
  file.take len ++ List.replicate (len - file.length) 0

/-- Observable effects on the underlying handle. -/
inductive FsEvent where
  | truncated (len : Nat)
  | closed
deriving Repr, DecidableEq

/-- `toFileSink`'s `close` callback: `await fh.truncate(position); await
fh.close()` — the resulting file contents. -/
def closeSink (st : SinkState) : List Nat :=
  truncateFile st.file st.position

/-- The handle-level events of the `close` callback, in order. -/
def closeEvents (st : SinkState) : List FsEvent :=
  [.truncated st.position, .closed]

/-- `toFileSink`'s `abort` callback: `await fh.close()` — the file is left
as-is. -/
def abortSink (st : SinkState) : List Nat :=
  st.file

/-- The handle-level events of the `abort` callback. -/
def abortEvents (_ : SinkState) : List FsEvent :=
  [.closed]

/-- Total byte length of a sequence of chunks. -/
def totalLen (chunks : List (List Nat)) : Nat :=
  (chunks.map List.length).sum

lemma storeBytes_length (file : List Nat) (pos : Nat) (bytes : List Nat) :
    (storeBytes file pos bytes).length = max file.length (pos + bytes.length) := by
  simp [storeBytes]
  omega

lemma drain_done (W : Nat → Nat → Nat) (fuel : Nat) (chunk : List Nat)
    (offset : Nat) (st : SinkState) (hoff : chunk.length ≤ offset) :
    drain W fuel chunk offset st = .ok st := by
  rw [drain.eq_def]
  simp [Nat.not_lt.mpr hoff]

/-- One iteration of the retry loop when the writer reports positive
progress: the call stores the accepted slice at the cursor and the loop
continues with the advanced offset and cursor. -/
lemma drain_step (W : Nat → Nat → Nat) (fuel : Nat) (chunk : List Nat)
    (offset : Nat) (st : SinkState) (hoff : offset < chunk.length)
    (hbw : W st.calls (chunk.length - offset) ≠ 0) :
    drain W (fuel + 1) chunk offset st =
      drain W fuel chunk (offset + W st.calls (chunk.length - offset))
        { file := storeBytes st.file st.position
            ((chunk.drop offset).take (W st.calls (chunk.length - offset)))
          position := st.position + W st.calls (chunk.length - offset)
          calls := st.calls + 1 } := by
  conv_lhs => rw [drain.eq_def]
  simp [hoff, hbw]

/-- The loop throws exactly when a call reports zero bytes written while
unwritten bytes of the chunk remain. -/
lemma drain_stall (W : Nat → Nat → Nat) (fuel : Nat) (chunk : List Nat)
    (offset : Nat) (st : SinkState) (hoff : offset < chunk.length)
    (hbw : W st.calls (chunk.length - offset) = 0) :
    drain W (fuel + 1) chunk offset st = .error .noProgress := by
  rw [drain.eq_def]
  simp [hoff, hbw]

/-- Correctness of the retry loop under a writer that accepts at least one
and at most the requested number of bytes per call: the loop terminates
normally, the cursor advances by exactly the number of remaining bytes,
and the file holds the chunk's suffix at the cursor with everything
outside that window untouched. -/
lemma drain_ok (W : Nat → Nat → Nat)
    (hW : ∀ k len, 0 < len → 1 ≤ W k len ∧ W k len ≤ len) :
    ∀ (fuel : Nat) (chunk : List Nat) (offset : Nat) (st : SinkState),
      chunk.length - offset ≤ fuel →
      st.position ≤ st.file.length →
      ∃ st', drain W fuel chunk offset st = .ok st'
        ∧ st'.position = st.position + (chunk.length - offset)
        ∧ st'.calls ≥ st.calls
        ∧ st'.file = st.file.take st.position ++ chunk.drop offset
            ++ st.file.drop (st.position + (chunk.length - offset)) := by
  intro fuel
  induction fuel with
  | zero =>
    intro chunk offset st hfuel _
    have hoff : chunk.length ≤ offset := by omega
    refine ⟨st, drain_done W 0 chunk offset st hoff, by omega, le_refl _, ?_⟩
    rw [List.drop_eq_nil_of_le hoff, Nat.sub_eq_zero_of_le hoff]
    simp [List.take_append_drop]
  | succ fuel ih =>
    intro chunk offset st hfuel hpos
    by_cases hoff : offset < chunk.length
    · obtain ⟨hbw1, hbw2⟩ := hW st.calls (chunk.length - offset) (by omega)
      set bw := W st.calls (chunk.length - offset) with hbwdef
      have hbwne : bw ≠ 0 := by omega
      have htl : ((chunk.drop offset).take bw).length = bw := by
        simp [List.length_take, List.length_drop]
        omega
      set st1 : SinkState :=
        { file := storeBytes st.file st.position ((chunk.drop offset).take bw)
          position := st.position + bw
          calls := st.calls + 1 } with hst1
      have hpos1 : st1.position ≤ st1.file.length := by
        simp only [hst1, storeBytes_length, htl]
        omega
      obtain ⟨st2, hrun, hpos2, hcalls2, hfile2⟩ :=
        ih chunk (offset + bw) st1 (by omega) hpos1
      refine ⟨st2, ?_, by simp only [hst1] at hpos2; omega,
        by simp only [hst1] at hcalls2; omega, ?_⟩
      · rw [drain_step W fuel chunk offset st hoff hbwne, ← hbwdef, ← hst1]
        exact hrun
      · have hrep : st.position - st.file.length = 0 := by omega
        have hfl : st1.file =
            (st.file.take st.position ++ (chunk.drop offset).take bw)
              ++ st.file.drop (st.position + bw) := by
          simp only [hst1, storeBytes, hrep, htl]
          simp
        have hlen1 : (st.file.take st.position ++ (chunk.drop offset).take bw).length
            = st.position + bw := by
          simp [List.length_take, htl]
          omega
        rw [hfile2]
        have htake : st1.file.take st1.position
            = st.file.take st.position ++ (chunk.drop offset).take bw := by
          rw [hfl]
          have : st1.position = st.position + bw := by simp [hst1]
          rw [this]
          exact List.take_left' hlen1
        have hdrop : st1.file.drop (st1.position + (chunk.length - (offset + bw)))
            = st.file.drop (st.position + (chunk.length - offset)) := by
          rw [hfl]
          have h1 : st1.position + (chunk.length - (offset + bw))
              = (st.position + bw) + (chunk.length - offset - bw) := by
            simp [hst1]
            omega
          rw [h1, List.drop_append_eq_append_drop, hlen1,
            List.drop_eq_nil_of_le (by omega)]
          rw [List.drop_drop]
          simp
          congr 1
          omega
        rw [htake, hdrop]
        have hmid : chunk.drop offset
            = (chunk.drop offset).take bw ++ chunk.drop (offset + bw) := by
          conv_lhs => rw [← List.take_append_drop bw (chunk.drop offset)]
          rw [List.drop_drop]
        conv_rhs => rw [hmid]
        simp [List.append_assoc]
    · have hoff2 : chunk.length ≤ offset := by omega
      refine ⟨st, drain_done W (fuel + 1) chunk offset st hoff2, by omega,
        le_refl _, ?_⟩
      rw [List.drop_eq_nil_of_le hoff2, Nat.sub_eq_zero_of_le hoff2]
      simp [List.take_append_drop]

/-- `write(chunk)` under a 1-to-requested writer: the whole chunk lands at
the cursor, the cursor advances by the chunk's byte length, and bytes
outside the written window are untouched. -/
lemma writeChunk_ok (W : Nat → Nat → Nat)
    (hW : ∀ k len, 0 < len → 1 ≤ W k len ∧ W k len ≤ len)
    (chunk : List Nat) (st : SinkState) (hpos : st.position ≤ st.file.length) :
    ∃ st', writeChunk W chunk st = .ok st'
      ∧ st'.position = st.position + chunk.length
      ∧ st'.file = st.file.take st.position ++ chunk
          ++ st.file.drop (st.position + chunk.length) := by
  obtain ⟨st', hrun, hp, _, hf⟩ :=
    drain_ok W hW chunk.length chunk 0 st (by omega) hpos
  exact ⟨st', hrun, by simpa using hp, by simpa using hf⟩

/-- Writing a whole sequence of chunks: the concatenation of the chunks
lands at the starting cursor in arrival order. -/
lemma runChunks_ok (W : Nat → Nat → Nat)
    (hW : ∀ k len, 0 < len → 1 ≤ W k len ∧ W k len ≤ len) :
    ∀ (cs : List (List Nat)) (st : SinkState),
      st.position ≤ st.file.length →
      ∃ st', runChunks W cs st = .ok st'
        ∧ st'.position = st.position + totalLen cs
        ∧ st'.file = st.file.take st.position ++ cs.flatten
            ++ st.file.drop (st.position + totalLen cs) := by
  intro cs
  induction cs with
  | nil =>
    intro st _
    refine ⟨st, rfl, by simp [totalLen], ?_⟩
    simp [totalLen, List.take_append_drop]
  | cons c cs ih =>
    intro st hpos
    obtain ⟨st1, hw, hp1, hf1⟩ := writeChunk_ok W hW c st hpos
    have hlenpre : (st.file.take st.position ++ c).length
        = st.position + c.length := by
      simp [List.length_take]
      omega
    have hf1' : st1.file = (st.file.take st.position ++ c)
        ++ st.file.drop (st.position + c.length) := by
      rw [hf1, List.append_assoc]
    have hpos1 : st1.position ≤ st1.file.length := by
      rw [hf1', hp1]
      simp [List.length_take]
      omega
    obtain ⟨st2, hrun, hp2, hf2⟩ := ih st1 hpos1
    refine ⟨st2, ?_, ?_, ?_⟩
    · rw [runChunks, hw]
      exact hrun
    · rw [hp2, hp1]
      simp [totalLen]
      omega
    · rw [hf2, hf1', hp1]
      rw [List.take_left' hlenpre]
      have hdr : ((st.file.take st.position ++ c)
            ++ st.file.drop (st.position + c.length)).drop
              (st.position + c.length + totalLen cs)
          = st.file.drop (st.position + totalLen (c :: cs)) := by
        rw [List.drop_append_eq_append_drop, hlenpre,
          List.drop_eq_nil_of_le (by omega), List.drop_drop]
        simp
        congr 1
        simp [totalLen]
        omega
      rw [hdr]
      simp [List.append_assoc, totalLen]

/-- With fuel at least the number of unwritten bytes, the fuel artifact
never fires: each iteration either throws `noProgress` or advances. -/
lemma drain_no_fuel_error (W : Nat → Nat → Nat) :
    ∀ (fuel : Nat) (chunk : List Nat) (offset : Nat) (st : SinkState),
      chunk.length - offset ≤ fuel →
      drain W fuel chunk offset st ≠ .error .outOfFuel := by
  intro fuel
  induction fuel with
  | zero =>
    intro chunk offset st hfuel
    rw [drain_done W 0 chunk offset st (by omega)]
    intro h
    exact Except.noConfusion h
  | succ fuel ih =>
    intro chunk offset st hfuel
    by_cases hoff : offset < chunk.length
    · by_cases hbw : W st.calls (chunk.length - offset) = 0
      · rw [drain_stall W fuel chunk offset st hoff hbw]
        intro h
        cases h
      · rw [drain_step W fuel chunk offset st hoff hbw]
        exact ih chunk _ _ (by omega)
    · rw [drain_done W (fuel + 1) chunk offset st (by omega)]
      intro h
      exact Except.noConfusion h

/-- A drain error is always `noProgress`, and it always comes from an
actual underlying call that reported zero bytes written on a positive
request. -/
lemma drain_error_source (W : Nat → Nat → Nat) :
    ∀ (fuel : Nat) (chunk : List Nat) (offset : Nat) (st : SinkState)
      (e : DrainErr),
      chunk.length - offset ≤ fuel →
      drain W fuel chunk offset st = .error e →
      e = DrainErr.noProgress ∧ ∃ k len, 0 < len ∧ W k len = 0 := by
  intro fuel
  induction fuel with
  | zero =>
    intro chunk offset st e hfuel herr
    rw [drain_done W 0 chunk offset st (by omega)] at herr
    exact Except.noConfusion herr
  | succ fuel ih =>
    intro chunk offset st e hfuel herr
    by_cases hoff : offset < chunk.length
    · by_cases hbw : W st.calls (chunk.length - offset) = 0
      · rw [drain_stall W fuel chunk offset st hoff hbw] at herr
        cases herr
        exact ⟨rfl, st.calls, chunk.length - offset, by omega, hbw⟩
      · rw [drain_step W fuel chunk offset st hoff hbw] at herr
        exact ih chunk _ _ e (by omega) herr
    · rw [drain_done W (fuel + 1) chunk offset st (by omega)] at herr
      exact Except.noConfusion herr

/-- The `take(n)` transform, threading its `count` closure variable:
`if (count < n) { enqueue(chunk); count++ }  if (count >= n) terminate()`.
Returns the emitted items and the number of upstream items that entered
the transform before it terminated (or the input ran out). -/
def takeGo (n : Nat) : Nat → List α → List α × Nat
  | _, [] => ([], 0)
  | count, a :: as =>
    if count < n then
      if n ≤ count + 1 then
        ([a], 1)
      else
        let r := takeGo n (count + 1) as
        (a :: r.1, r.2 + 1)
    else
      ([], 1)

/-- The `take(n)` stage on an input sequence, starting with `count = 0`. -/
def takeRun (n : Nat) (S : List α) : List α × Nat :=
  takeGo n 0 S

/-- The `skip(n)` transform, threading its `count` closure variable:
`if (count >= n) enqueue(chunk); count++`. -/
def skipGo (n : Nat) : Nat → List α → List α
  | _, [] => []
  | count, a :: as =>
    if n ≤ count then a :: skipGo n (count + 1) as
    else skipGo n (count + 1) as

/-- The `skip(n)` stage on an input sequence, starting with `count = 0`. -/
def skipRun (n : Nat) (S : List α) : List α :=
  skipGo n 0 S

/-- The `scan(fn, initial)` transform, threading its `acc` closure
variable: `acc = fn(acc, chunk); enqueue(acc)`. -/
def scanGo (f : β → α → β) : β → List α → List β
  | _, [] => []
  | acc, a :: as =>
    let acc2 := f acc a
    acc2 :: scanGo f acc2 as

/-- The `map(fn)` transform: `enqueue(fn(chunk))` per chunk. -/
def mapStage (f : α → β) : List α → List β
  | [] => []
  | a :: as => f a :: mapStage f as

/-- The `filter(predicate)` transform: `if (predicate(chunk))
enqueue(chunk)` per chunk. -/
def filterStage (p : α → Bool) : List α → List α
  | [] => []
  | a :: as => if p a then a :: filterStage p as else filterStage p as

/-- An item flowing into `collect`, classified the way `collect` inspects
it at runtime: a typed-array view with a given element width in bytes and
its list of element values, a string, or anything else. -/
inductive Item where
  | view (width : Nat) (elems : List Nat)
  | str (s : String)
  | other (tag : Nat)
deriving Repr, DecidableEq

/-- The value `collect` returns: one concatenated typed-array buffer of a
given element width, one joined string, or the plain ordered sequence. -/
inductive CollectResult where
  | buf (width : Nat) (elems : List Nat)
  | text (s : String)
  | arr (items : List Item)
deriving Repr, DecidableEq

/-- `TypedArray.prototype.set` element conversion: storing a value into an
integer view of `width` bytes per element keeps it modulo `2 ^ (8 * width)`. -/
def convertTo (width : Nat) (v : Nat) : Nat :=
  v % 2 ^ (8 * width)

/-- The element values a chunk contributes under `result.set(chunk, offset)`.
Only typed-array chunks are modelled: a non-view chunk inside a
view-headed stream makes the host `set` call throw, which is outside the
behaviour the spec covers. -/
def viewElems : Item → List Nat
  | .view _ es => es
  | _ => []

/-- The string a chunk contributes to `chunks.join('')`. -/
def strVal : Item → String
  | .str s => s
  | _ => ""

/-- `collect()` after the read loop has gathered `chunks`, from
`EnhancedStream.collect`: empty input returns the empty array; otherwise
the runtime shape of the first chunk alone picks the strategy —
`ArrayBuffer.isView(first)` concatenates every chunk element-wise into a
fresh buffer of the first chunk's constructor (total element count, not
byte count), a string first chunk joins all chunks with the empty
separator, and anything else returns the array of chunks as-is. -/
def collect (chunks : List Item) : CollectResult :=
  match chunks with
  | [] => .arr []
  | first :: _ =>
    match first with
    | .view w _ =>
        .buf w ((chunks.map fun c => (viewElems c).map (convertTo w)).flatten)
    | .str _ => .text (String.join (chunks.map strVal))
    | .other _ => .arr chunks

/-- The observable behaviour of a stream's readable end: the items it
emits in order, and then either a clean close (`none`) or an error. -/
structure StreamOut (α : Type u) (ε : Type v) where
  items : List α
  err : Option ε

/-- The transform loop of `through(transformFn)`: each chunk is mapped by
the transform function; a throwing chunk makes the stage call
`controller.error(error)`, which drops the rest of the input and ends the
output with that error. -/
def throughItems (fn : α → Except ε β) : List α → List β × Option ε
  | [] => ([], none)
  | a :: as =>
    match fn a with
    | .ok b =>
      let r := throughItems fn as
      (b :: r.1, r.2)
    | .error e => ([], some e)

/-- A `through(transformFn, flushFn)` stage applied to an upstream
behaviour: transform errors end the output stream with that error; an
upstream error is propagated after the successfully transformed items;
`flushFn` runs only on clean upstream completion and its error is
surfaced like a stage error. -/
def throughStage (fn : α → Except ε β) (flushFn : Option (Except ε Unit))
    (s : StreamOut α ε) : StreamOut β ε :=
  let r := throughItems fn s.items
  match r.2 with
  | some e => { items := r.1, err := some e }
  | none =>
    match s.err with
    | some e => { items := r.1, err := some e }
    | none =>
      match flushFn with
      | some (.error e) => { items := r.1, err := some e }
      | _ => { items := r.1, err := none }

/-- The `toArray` / `collect` read loop as a terminal consumer: it returns
the gathered items only when the stream closes cleanly; a stream error
makes `reader.read()` reject, so the loop rethrows and no partial array
is returned. -/
def toArrayRun (s : StreamOut α ε) : Except ε (List α) :=
  match s.err with
  | some e => .error e
  | none => .ok s.items

lemma takeGo_spec (n : Nat) :
    ∀ (S : List α) (count : Nat),
      (takeGo n count S).1 = S.take (n - count)
      ∧ (takeGo n count S).2 = min (max (n - count) 1) S.length := by
  intro S
  induction S with
  | nil =>
    intro count
    simp [takeGo]
  | cons a as ih =>
    intro count
    by_cases h1 : count < n
    · by_cases h2 : n ≤ count + 1
      · have hnc : n - count = 1 := by omega
        rw [takeGo]
        simp only [if_pos h1, if_pos h2, hnc]
        refine ⟨by simp, ?_⟩
        simp
      · have hstep : n - count = (n - (count + 1)) + 1 := by omega
        obtain ⟨ih1, ih2⟩ := ih (count + 1)
        rw [takeGo]
        simp only [if_pos h1, if_neg h2]
        refine ⟨?_, ?_⟩
        · rw [hstep, List.take_succ_cons, ih1]
        · rw [ih2]
          simp
          omega
    · have hnc : n - count = 0 := by omega
      rw [takeGo]
      simp only [if_neg h1, hnc]
      refine ⟨by simp, ?_⟩
      simp

/-- `take(n)` emits exactly the first `min(n, |S|)` items, and the number
of upstream items entering its transform is `min(max(n,1), |S|)`: for
`n ≥ 1` it stops pulling right after emitting the `n`-th item, and for
`n = 0` termination is only triggered by the arrival of the first item. -/
lemma takeRun_spec (n : Nat) (S : List α) :
    (takeRun n S).1 = S.take n
    ∧ (takeRun n S).2 = min (max n 1) S.length := by
  have h := takeGo_spec n S 0
  simpa [takeRun] using h

lemma skipGo_spec (n : Nat) :
    ∀ (S : List α) (count : Nat), skipGo n count S = S.drop (n - count) := by
  intro S
  induction S with
  | nil =>
    intro count
    simp [skipGo]
  | cons a as ih =>
    intro count
    by_cases h : n ≤ count
    · have hnc : n - count = 0 := by omega
      have hnc2 : n - (count + 1) = 0 := by omega
      rw [skipGo, if_pos h, ih (count + 1), hnc, hnc2]
      simp
    · have hstep : n - count = (n - (count + 1)) + 1 := by omega
      rw [skipGo, if_neg h, ih (count + 1), hstep, List.drop_succ_cons]

lemma skipRun_spec (n : Nat) (S : List α) : skipRun n S = S.drop n := by
  have h := skipGo_spec n S 0
  simpa [skipRun] using h

lemma scanGo_length (f : β → α → β) :
    ∀ (S : List α) (acc : β), (scanGo f acc S).length = S.length := by
  intro S
  induction S with
  | nil => intro acc; simp [scanGo]
  | cons a as ih =>
    intro acc
    simp [scanGo, ih]

lemma scanGo_getD (f : β → α → β) :
    ∀ (S : List α) (acc : β) (k : Nat) (d : β), k < S.length →
      (scanGo f acc S).getD k d = (S.take (k + 1)).foldl f acc := by
  intro S
  induction S with
  | nil =>
    intro acc k d hk
    simp at hk
  | cons a as ih =>
    intro acc k d hk
    cases k with
    | zero => simp [scanGo]
    | succ k =>
      rw [scanGo]
      simp only [List.getD_cons_succ, List.take_succ_cons, List.foldl_cons]
      exact ih (f acc a) k d (by simpa using hk)

lemma mapStage_eq (f : α → β) : ∀ (S : List α), mapStage f S = S.map f := by
  intro S
  induction S with
  | nil => simp [mapStage]
  | cons a as ih => simp [mapStage, ih]

lemma filterStage_eq (p : α → Bool) :
    ∀ (S : List α), filterStage p S = S.filter p := by
  intro S
  induction S with
  | nil => simp [filterStage]
  | cons a as ih =>
    by_cases h : p a
    · simp [filterStage, h, ih, List.filter_cons]
    · simp [filterStage, h, ih, List.filter_cons]

lemma map_convertTo_id (w : Nat) :
    ∀ (es : List Nat), (∀ v ∈ es, v < 2 ^ (8 * w)) →
      es.map (convertTo w) = es := by
  intro es
  induction es with
  | nil => intro _; simp
  | cons v vs ih =>
    intro h
    rw [List.map_cons, ih (fun u hu => h u (by simp [hu]))]
    have hv : v % 2 ^ (8 * w) = v := Nat.mod_eq_of_lt (h v (by simp))
    simp [convertTo, hv]

lemma throughItems_all_ok (fn : α → Except ε β) :
    ∀ (l : List α), (∀ a ∈ l, ∃ b, fn a = .ok b) →
      (throughItems fn l).2 = none := by
  intro l
  induction l with
  | nil => intro _; simp [throughItems]
  | cons a as ih =>
    intro h
    obtain ⟨b, hb⟩ := h a (by simp)
    rw [throughItems, hb]
    exact ih (fun x hx => h x (by simp [hx]))

lemma throughItems_fail (fn : α → Except ε β) :
    ∀ (l : List α) (a : α) (e : ε), a ∈ l → fn a = .error e →
      ∃ e2, (throughItems fn l).2 = some e2 := by
  intro l
  induction l with
  | nil =>
    intro a e ha _
    simp at ha
  | cons x xs ih =>
    intro a e ha hfa
    cases hfx : fn x with
    | ok b =>
      rw [throughItems, hfx]
      rcases List.mem_cons.mp ha with rfl | hmem
      · rw [hfa] at hfx
        exact Except.noConfusion hfx
      · exact ih a e hmem hfa
    | error e0 =>
      rw [throughItems, hfx]
      exact ⟨e0, rfl⟩

lemma totalLen_flatten (chunks : List (List Nat)) :
    chunks.flatten.length = totalLen chunks := by
  simp [totalLen]

/-- The sink state an adequate run reaches over a pre-existing file: the
chunk bytes sit at the front, the pre-existing tail beyond the cursor is
untouched. -/
lemma runChunks_initSink (W : Nat → Nat → Nat)
    (hW : ∀ k len, 0 < len → 1 ≤ W k len ∧ W k len ≤ len)
    (chunks : List (List Nat)) (init : List Nat) :
    ∃ st', runChunks W chunks (initSink init) = .ok st'
      ∧ st'.position = totalLen chunks
      ∧ st'.file = chunks.flatten ++ init.drop (totalLen chunks) := by
  obtain ⟨st', hrun, hp, hf⟩ :=
    runChunks_ok W hW chunks (initSink init) (by simp [initSink])
  refine ⟨st', hrun, by simpa [initSink] using hp, ?_⟩
  rw [hf]
  simp [initSink]

lemma closeSink_of_run (st' : SinkState) (chunks : List (List Nat))
    (init : List Nat) (hp : st'.position = totalLen chunks)
    (hf : st'.file = chunks.flatten ++ init.drop (totalLen chunks)) :
    closeSink st' = chunks.flatten := by
  have hlen : chunks.flatten.length = totalLen chunks := totalLen_flatten chunks
  rw [closeSink, truncateFile, hp, hf]
  rw [List.take_left' hlen]
  have : totalLen chunks -
      (chunks.flatten ++ init.drop (totalLen chunks)).length = 0 := by
    simp [hlen]
  rw [this]
  simp

/-- C1: for every finite sequence of byte chunks over any pre-existing
target, and every underlying writer accepting at least 1 and at most the
requested number of bytes per call, the FileSink adapter drains every
chunk: the cursor after each chunk equals the cursor before plus the
chunk's byte length, the drained bytes are exactly the concatenation of
the chunks in arrival order, and after normal close the target's length
equals the sum of the chunk lengths. -/
theorem fileSink_partial_writer_total (W : Nat → Nat → Nat)
    (hW : ∀ k len, 0 < len → 1 ≤ W k len ∧ W k len ≤ len)
    (chunks : List (List Nat)) (init : List Nat) :
    (∃ st', runChunks W chunks (initSink init) = .ok st'
      ∧ st'.position = totalLen chunks
      ∧ closeSink st' = chunks.flatten
      ∧ (closeSink st').length = totalLen chunks)
    ∧ ∀ (chunk : List Nat) (st : SinkState), st.position ≤ st.file.length →
        ∃ st', writeChunk W chunk st = .ok st'
          ∧ st'.position = st.position + chunk.length := by
  constructor
  · obtain ⟨st', hrun, hp, hf⟩ := runChunks_initSink W hW chunks init
    have hclose := closeSink_of_run st' chunks init hp hf
    exact ⟨st', hrun, hp, hclose, by rw [hclose]; exact totalLen_flatten chunks⟩
  · intro chunk st hpos
    obtain ⟨st', hw, hp, _⟩ := writeChunk_ok W hW chunk st hpos
    exact ⟨st', hw, hp⟩

/-- C1 witness: a writer that accepts at most two bytes per call, the
chunks `[1,2,3]` and `[4,5]`, and a pre-existing 8-byte target. -/
theorem fileSink_partial_writer_total_witness :
    ((∃ st', runChunks (fun _ len => min 2 len) [[1, 2, 3], [4, 5]]
        (initSink [9, 9, 9, 9, 9, 9, 9, 9]) = .ok st'
      ∧ st'.position = totalLen [[1, 2, 3], [4, 5]]
      ∧ closeSink st' = [[1, 2, 3], [4, 5]].flatten
      ∧ (closeSink st').length = totalLen [[1, 2, 3], [4, 5]])
    ∧ ∀ (chunk : List Nat) (st : SinkState), st.position ≤ st.file.length →
        ∃ st', writeChunk (fun _ len => min 2 len) chunk st = .ok st'
          ∧ st'.position = st.position + chunk.length) :=
  fileSink_partial_writer_total (fun _ len => min 2 len)
    (fun _ len h => ⟨by show 1 ≤ min 2 len; omega, by show min 2 len ≤ len; omega⟩)
    [[1, 2, 3], [4, 5]]
    [9, 9, 9, 9, 9, 9, 9, 9]

/-- C3: the adapter fails with the no-progress error exactly when a single
underlying write call reports zero bytes written while unwritten bytes
remain; a partial write is never surfaced as an error and is instead
retried with the updated offset and cursor position. -/
theorem fileSink_noProgress_exact :
    (∀ (W : Nat → Nat → Nat) (chunk : List Nat) (st : SinkState),
        (∀ k len, 0 < len → 1 ≤ W k len ∧ W k len ≤ len) →
        ∃ st', writeChunk W chunk st = .ok st')
    ∧ (∀ (W : Nat → Nat → Nat) (fuel : Nat) (chunk : List Nat) (offset : Nat)
        (st : SinkState), offset < chunk.length →
        W st.calls (chunk.length - offset) = 0 →
        drain W (fuel + 1) chunk offset st = .error DrainErr.noProgress)
    ∧ (∀ (W : Nat → Nat → Nat) (chunk : List Nat) (st : SinkState)
        (e : DrainErr), writeChunk W chunk st = .error e →
        e = DrainErr.noProgress ∧ ∃ k len, 0 < len ∧ W k len = 0)
    ∧ (∀ (W : Nat → Nat → Nat) (fuel : Nat) (chunk : List Nat) (offset : Nat)
        (st : SinkState), offset < chunk.length →
        W st.calls (chunk.length - offset) ≠ 0 →
        drain W (fuel + 1) chunk offset st =
          drain W fuel chunk (offset + W st.calls (chunk.length - offset))
            { file := storeBytes st.file st.position
                ((chunk.drop offset).take (W st.calls (chunk.length - offset)))
              position := st.position + W st.calls (chunk.length - offset)
              calls := st.calls + 1 }) := by
  refine ⟨?_, drain_stall, ?_, drain_step⟩
  · intro W chunk st hW
    cases h : writeChunk W chunk st with
    | ok st' => exact ⟨st', rfl⟩
    | error e =>
      exfalso
      obtain ⟨_, k, len, hlen, hzero⟩ :=
        drain_error_source W chunk.length chunk 0 st e (by omega) h
      have := (hW k len hlen).1
      omega
  · intro W chunk st e herr
    exact drain_error_source W chunk.length chunk 0 st e (by omega) herr

/-- C3 witness: a writer that reports zero bytes on its first call makes
the adapter fail with the no-progress error on a one-byte chunk. -/
theorem fileSink_noProgress_exact_witness :
    drain (fun _ _ => 0) 1 [7] 0 (initSink []) = .error DrainErr.noProgress :=
  fileSink_noProgress_exact.2.1 (fun _ _ => 0) 0 [7] 0 (initSink [])
    (by decide) rfl

/-- C4: after a normal run, close truncates the target to exactly the
final cursor position and then closes the handle — pre-existing trailing
bytes beyond what was written are discarded — while abort closes the
handle without truncating, leaving the target's bytes beyond the cursor
unchanged. -/
theorem fileSink_close_truncates_abort_preserves (W : Nat → Nat → Nat)
    (hW : ∀ k len, 0 < len → 1 ≤ W k len ∧ W k len ≤ len)
    (chunks : List (List Nat)) (init : List Nat) :
    ∃ st', runChunks W chunks (initSink init) = .ok st'
      ∧ closeSink st' = chunks.flatten
      ∧ closeEvents st' = [FsEvent.truncated (totalLen chunks), FsEvent.closed]
      ∧ abortSink st' = chunks.flatten ++ init.drop (totalLen chunks)
      ∧ abortEvents st' = [FsEvent.closed] := by
  obtain ⟨st', hrun, hp, hf⟩ := runChunks_initSink W hW chunks init
  exact ⟨st', hrun, closeSink_of_run st' chunks init hp hf,
    by rw [closeEvents, hp], hf, rfl⟩

/-- C4 witness: writing `[1,2,3]` then `[4,5]` over a pre-existing 8-byte
target; close yields the 5 written bytes alone, abort keeps the stale
tail `[9,9,9]`. -/
theorem fileSink_close_truncates_abort_preserves_witness :
    ∃ st', runChunks (fun _ len => len) [[1, 2, 3], [4, 5]]
        (initSink [9, 9, 9, 9, 9, 9, 9, 9]) = .ok st'
      ∧ closeSink st' = [[1, 2, 3], [4, 5]].flatten
      ∧ closeEvents st' = [FsEvent.truncated (totalLen [[1, 2, 3], [4, 5]]),
          FsEvent.closed]
      ∧ abortSink st' = [[1, 2, 3], [4, 5]].flatten
          ++ [9, 9, 9, 9, 9, 9, 9, 9].drop (totalLen [[1, 2, 3], [4, 5]])
      ∧ abortEvents st' = [FsEvent.closed] :=
  fileSink_close_truncates_abort_preserves (fun _ len => len)
    (fun _ len h => ⟨by show 1 ≤ len; omega, by show len ≤ len; omega⟩)
    [[1, 2, 3], [4, 5]]
    [9, 9, 9, 9, 9, 9, 9, 9]

/-- C10: a zero-length chunk makes the adapter's write callback return at
once: the loop guard `offset < chunk.byteLength` is false immediately, so
no underlying write call happens (the call counter is unchanged), the
cursor is unchanged, and no error — in particular no no-progress error —
can be raised, whatever the underlying writer would do. -/
theorem fileSink_empty_chunk_noop (W : Nat → Nat → Nat) (st : SinkState) :
    writeChunk W [] st = .ok st := by
  rw [writeChunk, drain.eq_def]
  simp

/-- C5 counterexample: `take(0)` on the one-item input `[0]` emits nothing
but its transform still receives (and so consumes) one upstream item —
the stage only terminates from inside the transform, so the consumption
is not zero as "without consuming more than necessary" requires. -/
theorem take_zero_consumes_counterexample :
    (takeRun 0 [(0 : Nat)]).1 = [] ∧ (takeRun 0 [(0 : Nat)]).2 = 1
      ∧ ¬(takeRun 0 [(0 : Nat)]).2 = 0 := by
  decide

/-- C5 (amended): `take(n).toArray()` equals the first `min(n, |S|)` items
of S and has length `min(n, |S|)`; the number of upstream items entering
the stage's transform is exactly `min(max(n, 1), |S|)` — so for `n ≥ 1`
the stage terminates right after emitting the `n`-th item with no further
upstream pulls, while `take(0)` yields an empty result but still consumes
one upstream item when the input is nonempty, because termination only
happens inside the transform when the first chunk arrives. -/
theorem take_emits_prefix (α : Type) (n : Nat) (S : List α) :
    (takeRun n S).1 = S.take n
    ∧ (takeRun n S).1.length = min n S.length
    ∧ (takeRun n S).2 = min (max n 1) S.length := by
  obtain ⟨h1, h2⟩ := takeRun_spec n S
  exact ⟨h1, by rw [h1, List.length_take], h2⟩

/-- C6: `skip(n)` composed with `take(m)` emits exactly the array slice
`S[n : n+m]`, and the concrete pipeline
`from([1..10]).skip(2).filter(even).map(double).take(3)` collects to
`[8, 12, 16]`. -/
theorem skip_take_is_slice :
    (∀ (α : Type) (n m : Nat) (S : List α),
        (takeRun m (skipRun n S)).1 = (S.drop n).take m)
    ∧ (takeRun 3 (mapStage (fun x => x * 2)
        (filterStage (fun x => x % 2 == 0)
          (skipRun 2 [1, 2, 3, 4, 5, 6, 7, 8, 9, 10])))).1 = [8, 12, 16] := by
  constructor
  · intro α n m S
    rw [(takeRun_spec m (skipRun n S)).1, skipRun_spec]
  · decide

/-- C7: `scan(fn, init).toArray()` has the same length as the input and
its `k`-th element is the left fold of `fn` over `init` and the first
`k + 1` input items; concretely,
`from([1,2,3,4]).scan((a,x)=>a+x, 0)` collects to `[1, 3, 6, 10]`. -/
theorem scan_emits_folds :
    (∀ (α β : Type) (f : β → α → β) (init : β) (S : List α),
        (scanGo f init S).length = S.length
        ∧ ∀ (d : β) (k : Nat), k < S.length →
            (scanGo f init S).getD k d = (S.take (k + 1)).foldl f init)
    ∧ scanGo (fun (a x : Nat) => a + x) 0 [1, 2, 3, 4] = [1, 3, 6, 10] := by
  constructor
  · intro α β f init S
    exact ⟨scanGo_length f S init, fun d k hk => scanGo_getD f S init k d hk⟩
  · decide

/-- C7 witness: the third emitted value of `scan((a,x)=>a+x, 0)` over
`[1,2,3,4]` is the fold of the first three items. -/
theorem scan_emits_folds_witness :
    (scanGo (fun (a x : Nat) => a + x) 0 [1, 2, 3, 4]).getD 2 0
      = ([1, 2, 3, 4].take 3).foldl (fun a x => a + x) 0 :=
  (scan_emits_folds.1 Nat Nat (fun a x => a + x) 0 [1, 2, 3, 4]).2 0 2
    (by decide)

lemma map_view_convert (w : Nat) :
    ∀ (ls : List (List Nat)), (∀ es ∈ ls, ∀ v ∈ es, v < 2 ^ (8 * w)) →
      (ls.map (Item.view w)).map (fun c => (viewElems c).map (convertTo w))
        = ls := by
  intro ls
  induction ls with
  | nil => intro _; simp
  | cons e tail ih =>
    intro h
    rw [List.map_cons, List.map_cons,
      show viewElems (Item.view w e) = e from rfl,
      map_convertTo_id w e (h e (by simp)),
      ih (fun es hes => h es (by simp [hes]))]

lemma map_str_val : ∀ (ss : List String), (ss.map Item.str).map strVal = ss := by
  intro ss
  induction ss with
  | nil => simp
  | cons s tail ih => simp [strVal, ih]

/-- C8: `collect()` picks its result from the runtime shape of the first
gathered chunk only: an empty stream returns the empty array (never a
string or buffer); a typed-array first chunk makes all chunks concatenate
into one buffer of the first chunk's element width whose length is the
total element count; a string first chunk joins all chunks with the empty
separator; any other first chunk returns the plain ordered sequence. -/
theorem collect_by_first_shape :
    collect [] = CollectResult.arr []
    ∧ (∀ (w : Nat) (ess : List (List Nat)), ess ≠ [] →
        (∀ es ∈ ess, ∀ v ∈ es, v < 2 ^ (8 * w)) →
        collect (ess.map (Item.view w)) = CollectResult.buf w ess.flatten
        ∧ ess.flatten.length = totalLen ess)
    ∧ (∀ (ss : List String), ss ≠ [] →
        collect (ss.map Item.str) = CollectResult.text (String.join ss))
    ∧ (∀ (t : Nat) (rest : List Item),
        collect (Item.other t :: rest) = CollectResult.arr (Item.other t :: rest)) := by
  refine ⟨rfl, ?_, ?_, fun t rest => rfl⟩
  · intro w ess hne hbound
    refine ⟨?_, totalLen_flatten ess⟩
    cases ess with
    | nil => exact absurd rfl hne
    | cons e tail =>
      simp only [List.map_cons, collect]
      congr 1
      rw [show viewElems (Item.view w e) = e from rfl,
        map_convertTo_id w e (hbound e (by simp)),
        map_view_convert w tail (fun es hes => hbound es (by simp [hes]))]
  · intro ss hne
    cases ss with
    | nil => exact absurd rfl hne
    | cons s tail =>
      simp only [List.map_cons, collect]
      rw [show strVal (Item.str s) = s from rfl, map_str_val tail]

/-- C8 witness: two one-byte-wide views `[1,2]` and `[3]` collect into the
single width-1 buffer `[1,2,3]` of length 3. -/
theorem collect_by_first_shape_witness :
    collect ([[1, 2], [3]].map (Item.view 1))
      = CollectResult.buf 1 [[1, 2], [3]].flatten
    ∧ [[1, 2], [3]].flatten.length = totalLen [[1, 2], [3]] :=
  collect_by_first_shape.2.1 1 [[1, 2], [3]] (by decide) (by decide)

/-- C9: when a transform, predicate, or flush function fails on some item
of the pipeline, the stage ends its output with an error and the terminal
read loop rejects with an error — and conversely, a terminal success
implies every item was transformed successfully and upstream closed
cleanly, so `toArray`/`collect` never silently return a truncated
result. -/
theorem through_error_reaches_terminal :
    (∀ (α β ε : Type) (fn : α → Except ε β) (flushFn : Option (Except ε Unit))
        (s : StreamOut α ε) (a : α) (e : ε), a ∈ s.items → fn a = .error e →
        ∃ e2, toArrayRun (throughStage fn flushFn s) = .error e2)
    ∧ (∀ (α β ε : Type) (fn : α → Except ε β) (e : ε) (s : StreamOut α ε),
        (∀ a ∈ s.items, ∃ b, fn a = .ok b) → s.err = none →
        toArrayRun (throughStage fn (some (.error e)) s) = .error e)
    ∧ (∀ (α β ε : Type) (fn : α → Except ε β) (flushFn : Option (Except ε Unit))
        (s : StreamOut α ε) (l : List β),
        toArrayRun (throughStage fn flushFn s) = .ok l →
        (∀ a ∈ s.items, ∃ b, fn a = .ok b) ∧ s.err = none) := by
  refine ⟨?_, ?_, ?_⟩
  · intro α β ε fn flushFn s a e ha hfa
    obtain ⟨e2, he2⟩ := throughItems_fail fn s.items a e ha hfa
    exact ⟨e2, by simp [throughStage, toArrayRun, he2]⟩
  · intro α β ε fn e s h hserr
    have hnone := throughItems_all_ok fn s.items h
    simp [throughStage, toArrayRun, hnone, hserr]
  · intro α β ε fn flushFn s l hok
    cases h2 : (throughItems fn s.items).2 with
    | some e => simp [throughStage, toArrayRun, h2] at hok
    | none =>
      cases hserr : s.err with
      | some e => simp [throughStage, toArrayRun, h2, hserr] at hok
      | none =>
        refine ⟨?_, rfl⟩
        intro a ha
        cases hfa : fn a with
        | ok b => exact ⟨b, rfl⟩
        | error e =>
          obtain ⟨e2, he2⟩ := throughItems_fail fn s.items a e ha hfa
          rw [h2] at he2
          exact Option.noConfusion he2

/-- C9 witness: a transform that throws on the item 2 of `[1,2,3]` makes
the terminal read loop reject. -/
theorem through_error_reaches_terminal_witness :
    ∃ e2, toArrayRun (throughStage
      (fun n => if n = 2 then Except.error 7 else Except.ok n) none
      ⟨[1, 2, 3], none⟩) = Except.error e2 :=
  through_error_reaches_terminal.1 Nat Nat Nat
    (fun n => if n = 2 then Except.error 7 else Except.ok n) none
    ⟨[1, 2, 3], none⟩ 2 7 (by decide) rfl

end SubstrateStream
